import Mathlib

/-!
Verification of the git-log/tag parsing core of sv4git (src/sv/git.go).

Strings are embedded as `List Char` (Go strings are byte sequences; all the
constants involved are ASCII).  External collaborators are embedded at their
interface boundary: the message processor is a parameter of the commit-log
parser, and Go standard-library routines used by the source (bytes.Index,
strings.Split, strings.Trim, strings.TrimSpace, strconv.Atoi, time.Parse,
bufio.ScanLines) are translated as executable Lean functions.

A Go slice access out of range panics; functions that can panic are embedded
with an `Option` result where `none` marks the panic.
-/

namespace SvGit

/-- Convert a string literal to the `List Char` representation. -/
def strL (s : String) : List Char := s.data

/-- Field separator constant from git.go: logSeparator = "###". -/
def logSeparator : List Char := strL "###"

/-- End-of-record marker constant from git.go: endLine = "~~~". -/
def endLine : List Char := strL "~~~"

/-- Prefix test on character lists (Go bytes.HasPrefix). -/
def isPre : List Char → List Char → Bool
  | [], _ => true
  | _ :: _, [] => false
  | a :: as, b :: bs => a = b && isPre as bs

/-- Index of the first occurrence of `m` as a contiguous substring of `d`
(Go bytes.Index / strings.Index), `none` when there is none. -/
def findSub (m : List Char) : List Char → Option Nat
  | [] => if m = [] then some 0 else none
  | c :: tl => if isPre m (c :: tl) then some 0 else (findSub m tl).map (· + 1)

def splitAtGo (m : List Char) : Nat → List Char → List (List Char)
  | 0, _ => []
  | f + 1, d =>
    match findSub m d with
    | some i => d.take i :: splitAtGo m f (d.drop (i + m.length))
    | none => if d = [] then [] else [d]

/-- Record Splitter: the full token sequence produced by scanning `d` with
the split function splitAt(m) (git.go, splitAt and its use in
parseLogOutput). -/
def splitAtTokens (m d : List Char) : List (List Char) :=
  splitAtGo m (d.length + 1) d

/-- Fueled worker of the Go strings.Split model. -/
def splitSepGo (m : List Char) : Nat → List Char → List (List Char)
  | 0, d => [d]
  | f + 1, d =>
    match findSub m d with
    | some i => d.take i :: splitSepGo m f (d.drop (i + m.length))
    | none => [d]

/-- Go strings.Split(d, m) for a non-empty separator `m`: the final
remainder is always appended, so the result is never empty. -/
def splitSep (m d : List Char) : List (List Char) :=
  splitSepGo m (d.length + 1) d

/-- Fueled worker for the marker-terminated records of the splitter. -/
def splitTermGo (m : List Char) : Nat → List Char → List (List Char)
  | 0, _ => []
  | f + 1, d =>
    match findSub m d with
    | some i => d.take i :: splitTermGo m f (d.drop (i + m.length))
    | none => []

/-- The records of `splitAtTokens m d` that were terminated by the marker in
`d`: the splitter output with the final marker-less remainder dropped. -/
def splitTerminated (m d : List Char) : List (List Char) :=
  splitTermGo m (d.length + 1) d

/-- Fueled worker for counting separator occurrences. -/
def countOccGo (m : List Char) : Nat → List Char → Nat
  | 0, _ => 0
  | f + 1, d =>
    match findSub m d with
    | some i => countOccGo m f (d.drop (i + m.length)) + 1
    | none => 0

/-- Number of (leftmost, non-overlapping) occurrences of `m` in `d`; equals
the number of splits strings.Split performs. -/
def countOcc (m d : List Char) : Nat :=
  countOccGo m (d.length + 1) d

/-- Fueled worker for the remainder after the last consumed marker. -/
def restAfterGo (m : List Char) : Nat → List Char → List Char
  | 0, d => d
  | f + 1, d =>
    match findSub m d with
    | some i => restAfterGo m f (d.drop (i + m.length))
    | none => d

/-- The marker-less remainder of `d` after its last marker occurrence
consumed by the splitter. -/
def restAfter (m d : List Char) : List Char :=
  restAfterGo m (d.length + 1) d

/-- Join a list of records, each followed by the marker (the shape in which
git log emits records under the format string of git.go). -/
def joinEach (m : List Char) : List (List Char) → List Char
  | [] => []
  | t :: ts => t ++ m ++ joinEach m ts

def noEarlyOcc (m t : List Char) : Bool :=
  (List.range t.length).all (fun j => ! isPre m ((t ++ m).drop j))

def trimGoQuote (l : List Char) : List Char :=
  ((l.dropWhile (· = '"')).reverse.dropWhile (· = '"')).reverse

/-- Whitespace recognised by Go strings.TrimSpace, restricted to the ASCII
range (the inputs of this repository are ASCII). -/
def isGoSpace (c : Char) : Bool :=
  c = ' ' || c = '\t' || c = '\n' || c = '\x0b' || c = '\x0c' || c = '\r'

/-- Go strings.TrimSpace on ASCII input. -/
def trimSpace (l : List Char) : List Char :=
  ((l.dropWhile isGoSpace).reverse.dropWhile isGoSpace).reverse

/-- The dropCR step of Go bufio.ScanLines: strip one trailing carriage
return from a line. -/
def dropCR (l : List Char) : List Char :=
  match l.getLast? with
  | some '\r' => l.dropLast
  | _ => l

/-- The line sequence a bufio.Scanner with bufio.ScanLines produces on a
finished stream: split at every newline (a final line without a newline is
still emitted; empty input gives no lines) and strip one trailing carriage
return per line. -/
def goLines (input : List Char) : List (List Char) :=
  (splitAtTokens ['\n'] input).map dropCR

/-- Join lines with single newlines and no trailing newline. -/
def joinLines : List (List Char) → List Char
  | [] => []
  | [l] => l
  | l :: ls => l ++ '\n' :: joinLines ls

/-- Decimal value of a digit list. -/
def digitsToNat (l : List Char) : Nat :=
  l.foldl (fun a c => a * 10 + (c.toNat - '0'.toNat)) 0

/-- Whether `s` is a syntactically valid Go base-10 integer literal as
accepted by strconv.Atoi: an optional sign followed by one or more
decimal digits. -/
def goIntSyntax (s : List Char) : Bool :=
  let t : List Char :=
    match s with
    | '+' :: r => r
    | '-' :: r => r
    | r => r
  decide (t ≠ []) && t.all Char.isDigit

/-- Go strconv.Atoi on a 64-bit platform: returns the value together with
the err == nil flag.  A syntax error yields (0, false); a syntactically
valid number out of the signed 64-bit range yields the clamped extreme
value together with false (strconv ErrRange semantics); otherwise the exact
value and true. -/
def goAtoi (s : List Char) : Int × Bool :=
  if goIntSyntax s then
    let neg : Bool :=
      match s with
      | '-' :: _ => true
      | _ => false
    let t : List Char :=
      match s with
      | '+' :: r => r
      | '-' :: r => r
      | r => r
    let n : Nat := digitsToNat t
    if neg then
      if n ≤ 9223372036854775808 then (-(n : Int), true)
      else (-9223372036854775808, false)
    else
      if n ≤ 9223372036854775807 then ((n : Int), true)
      else (9223372036854775807, false)
  else (0, false)

/-- GitCommitLog of git.go, with the opaque message type of the external
message processor as a parameter. -/
structure GitCommitLog (CM : Type) where
  Date : List Char
  Timestamp : Int
  AuthorName : List Char
  Hash : List Char
  Message : CM
deriving DecidableEq

/-- parseCommitLog of git.go.  The external collaborator
MessageProcessor.Parse is the parameter `mp`; `none` marks the
index-out-of-range panic of content[1] .. content[5] when the record has
too few fields.  The local binding content of the source is inlined. -/
def parseCommitLog {E CM : Type} (mp : List Char → List Char → Except E CM)
    (commit : List Char) : Option (Except E (GitCommitLog CM)) :=
  match (splitSep logSeparator (trimGoQuote commit)).get? 1,
      (splitSep logSeparator (trimGoQuote commit)).get? 2,
      (splitSep logSeparator (trimGoQuote commit)).get? 3,
      (splitSep logSeparator (trimGoQuote commit)).get? 4,
      (splitSep logSeparator (trimGoQuote commit)).get? 5 with
  | some c1, some c2, some c3, some c4, some c5 =>
    some (match mp c4 c5 with
      | Except.error e => Except.error e
      | Except.ok message =>
        Except.ok { Date := (splitSep logSeparator (trimGoQuote commit)).headI,
                    Timestamp := (goAtoi c1).1,
                    AuthorName := c2, Hash := c3, Message := message })
  | _, _, _, _, _ => none

/-- parseLogOutput of git.go applied to an already split token list. -/
def parseLogGo {E CM : Type} (mp : List Char → List Char → Except E CM) :
    List (List Char) → Option (Except E (List (GitCommitLog CM)))
  | [] => some (Except.ok [])
  | t :: ts =>
    let text := trimSpace (trimGoQuote t)
    if text = [] then parseLogGo mp ts
    else
      match parseCommitLog mp text with
      | none => none
      | some (Except.error e) => some (Except.error e)
      | some (Except.ok l) =>
        match parseLogGo mp ts with
        | none => none
        | some (Except.error e) => some (Except.error e)
        | some (Except.ok ls) => some (Except.ok (l :: ls))

/-- parseLogOutput of git.go: split the raw log output at the
end-of-record marker, trim each token of quotes and whitespace, skip empty
tokens and parse the rest.  `none` marks a panic inside parseCommitLog. -/
def parseLogOutput {E CM : Type} (mp : List Char → List Char → Except E CM)
    (log : List Char) : Option (Except E (List (GitCommitLog CM))) :=
  parseLogGo mp (splitAtTokens endLine log)

/-- Broken-down time as produced by the model of Go time.Parse.  The zero
value of Go time.Time is January 1 of year 1, 00:00:00 UTC. -/
structure GoTime where
  year : Nat
  month : Nat
  day : Nat
  hour : Nat
  minute : Nat
  sec : Nat
  offMin : Int
deriving DecidableEq

/-- Zero value of Go time.Time. -/
def zeroGoTime : GoTime := ⟨1, 1, 1, 0, 0, 0, 0⟩

/-- Leap-year rule of the proleptic Gregorian calendar used by Go time. -/
def isLeap (y : Nat) : Bool :=
  y % 4 = 0 && (y % 100 ≠ 0 || y % 400 = 0)

/-- Days in a month (month in 1..12). -/
def daysInMonth (y msnth : Nat) : Nat :=
  if msnth = 2 then (if isLeap y then 29 else 28)
  else if msnth = 4 ∨ msnth = 6 ∨ msnth = 9 ∨ msnth = 11 then 30
  else 31

/-- Model of Go time.Parse with the fixed layout
"2006-01-02 15:04:05 -0700" used by parseTagsOutput (git.go): a strict
fixed-width ISO-8601-with-offset form with calendar range checks.  `none`
models a non-nil parse error. -/
def goTimeParseTag : List Char → Option GoTime
  | [y1, y2, y3, y4, '-', m1, m2, '-', d1, d2, ' ',
     h1, h2, ':', n1, n2, ':', s1, s2, ' ', sg, z1, z2, z3, z4] =>
    if ([y1, y2, y3, y4, m1, m2, d1, d2, h1, h2, n1, n2, s1, s2,
         z1, z2, z3, z4].all Char.isDigit) && (sg = '+' || sg = '-') then
      let y := digitsToNat [y1, y2, y3, y4]
      let mo := digitsToNat [m1, m2]
      let d := digitsToNat [d1, d2]
      let h := digitsToNat [h1, h2]
      let mi := digitsToNat [n1, n2]
      let se := digitsToNat [s1, s2]
      let zh := digitsToNat [z1, z2]
      let zm := digitsToNat [z3, z4]
      if 1 ≤ mo && mo ≤ 12 && 1 ≤ d && d ≤ daysInMonth y mo &&
          h ≤ 23 && mi ≤ 59 && se ≤ 59 && zm ≤ 59 then
        some { year := y, month := mo, day := d, hour := h, minute := mi,
               sec := se,
               offMin := (if sg = '-' then -1 else 1) * ((zh : Int) * 60 + zm) }
      else none
    else none
  | _ => none

/-- GitTag of git.go. -/
structure GitTag where
  Name : List Char
  Date : GoTime
deriving DecidableEq

/-- The loop body of parseTagsOutput (git.go) for one scanned line:
`none` marks the index-out-of-range panic of values[1] on a trimmed
non-empty line without '#'; `some none` is a skipped blank line;
`some (some tag)` is an appended tag.  An unparseable date is ignored and
leaves the zero time.Time value.  The local bindings line and values of the
source are inlined. -/
def processTagLine (text : List Char) : Option (Option GitTag) :=
  if trimSpace text = [] then some none
  else
    match (splitSep ['#'] (trimSpace text)).get? 1 with
    | some name =>
      some (some { Name := name,
                   Date := (goTimeParseTag
                     ((splitSep ['#'] (trimSpace text)).headI)).getD zeroGoTime })
    | none => none

/-- Fold of processTagLine over the scanned lines, in input order. -/
def parseTagsGo : List (List Char) → Option (List GitTag)
  | [] => some []
  | l :: ls =>
    match processTagLine l with
    | none => none
    | some none => parseTagsGo ls
    | some (some t) => (parseTagsGo ls).map (t :: ·)

/-- parseTagsOutput of git.go: scan the raw output into lines, skip blank
lines, split each remaining line on '#' and collect name/date pairs.
`none` marks the values[1] panic. -/
def parseTagsOutput (input : List Char) : Option (List GitTag) :=
  parseTagsGo (goLines input)

/-- Calendar date for the model of addDay (git.go). -/
structure YMD where
  year : Nat
  month : Nat
  day : Nat
deriving DecidableEq

/-- Model of Go time.Parse with the fixed layout "2006-01-02" used by
addDay (git.go): strict fixed-width year-month-day with calendar range
checks; `none` models a non-nil parse error. -/
def parseYMD : List Char → Option YMD
  | [y1, y2, y3, y4, '-', m1, m2, '-', d1, d2] =>
    if [y1, y2, y3, y4, m1, m2, d1, d2].all Char.isDigit then
      let y := digitsToNat [y1, y2, y3, y4]
      let mo := digitsToNat [m1, m2]
      let d := digitsToNat [d1, d2]
      if 1 ≤ mo && mo ≤ 12 && 1 ≤ d && d ≤ daysInMonth y mo then
        some { year := y, month := mo, day := d }
      else none
    else none
  | _ => none

/-- Go t.AddDate(0, 0, 1) on a valid calendar date: the next day, with
month and year rollover. -/
def addOneDay (t : YMD) : YMD :=
  if t.day < daysInMonth t.year t.month then ⟨t.year, t.month, t.day + 1⟩
  else if t.month < 12 then ⟨t.year, t.month + 1, 1⟩
  else ⟨t.year + 1, 1, 1⟩

/-- Zero-pad a number to two digits (Go time layout "01"/"02"). -/
def pad2 (n : Nat) : List Char :=
  if n < 10 then '0' :: Nat.toDigits 10 n else Nat.toDigits 10 n

/-- Zero-pad a number to four digits (Go time layout "2006"). -/
def pad4 (n : Nat) : List Char :=
  let ds := Nat.toDigits 10 n
  List.replicate (4 - ds.length) '0' ++ ds

/-- Go t.Format("2006-01-02"). -/
def formatYMD (t : YMD) : List Char :=
  pad4 t.year ++ '-' :: pad2 t.month ++ '-' :: pad2 t.day

/-- addDay of git.go: advance a valid "YYYY-MM-DD" date by one day; keep
any other value (including the empty string) unchanged. -/
def addDay (value : List Char) : List Char :=
  if value = [] then value
  else
    match parseYMD value with
    | none => value
    | some t => formatYMD (addOneDay t)

/-- str of git.go: a value with an empty-string default. -/
def str (value defaultValue : List Char) : List Char :=
  if value ≠ [] then value else defaultValue

/-- LogRangeType of git.go. -/
inductive LogRangeType where
  | tag
  | date
  | hash
deriving DecidableEq

/-- LogRange of git.go (the end boundary is named end in Go). -/
structure LogRange where
  rangeType : LogRangeType
  start : List Char
  end_ : List Char

/-- The fixed pretty format string built in Log (git.go). -/
def logFormat : List Char :=
  strL "--pretty=format:\"%ad" ++ logSeparator ++ strL "%at" ++ logSeparator ++
    strL "%cN" ++ logSeparator ++ strL "%h" ++ logSeparator ++ strL "%s" ++
    logSeparator ++ strL "%b" ++ endLine ++ strL "\""

/-- The three arguments Log (git.go) always passes before any range
arguments. -/
def logBaseParams : List (List Char) :=
  [strL "log", strL "--date=short", logFormat]

/-- Range Resolver: the argument list Log (git.go) builds for the git
invocation from a LogRange. -/
def buildLogParams (lr : LogRange) : List (List Char) :=
  if lr.start ≠ [] ∨ lr.end_ ≠ [] then
    match lr.rangeType with
    | LogRangeType.date =>
      logBaseParams ++ [strL "--since", lr.start, strL "--until", addDay lr.end_]
    | _ =>
      if lr.start = [] then logBaseParams ++ [lr.end_]
      else logBaseParams ++ [lr.start ++ strL ".." ++ str lr.end_ (strL "HEAD")]
  else logBaseParams

/-- Outcome of one external command invocation as observed through
cmd.CombinedOutput(): whether err was non-nil, and the captured combined
output. -/
structure CmdOutcome where
  failed : Bool
  output : List Char

/-- IsDetached of git.go as a function of the symbolic-ref invocation
outcome: the returned pair is (detached, error), the error modelled by the
message errors.New carries (the captured output). -/
def isDetached (o : CmdOutcome) : Bool × Option (List Char) :=
  if o.failed then
    if o.output = [] then (true, none)
    else (false, some o.output)
  else (false, none)

/-- A concrete message processor used to evaluate the parsers on concrete
inputs: it always succeeds and records the subject/body pair it was
handed. -/
def mpPair : List Char → List Char → Except (List Char) (List Char × List Char) :=
  fun subject body => Except.ok (subject, body)

theorem isPre_append (p r : List Char) : isPre p (p ++ r) = true := by
  induction p with
  | nil => rfl
  | cons a as ih => simp [isPre, ih]

theorem isPre_length_le {p l : List Char} (h : isPre p l = true) :
    p.length ≤ l.length := by
  induction p generalizing l with
  | nil => simp
  | cons a as ih =>
    cases l with
    | nil => simp [isPre] at h
    | cons b bs =>
      simp only [isPre, Bool.and_eq_true, decide_eq_true_eq] at h
      simpa [Nat.succ_le_succ_iff] using ih h.2

theorem isPre_iff_take {p l : List Char} :
    isPre p l = true ↔ l.take p.length = p := by
  induction p generalizing l with
  | nil => simp [isPre]
  | cons a as ih =>
    cases l with
    | nil => simp [isPre]
    | cons b bs =>
      simp only [isPre, Bool.and_eq_true, decide_eq_true_eq, List.length_cons,
        List.take_succ_cons, List.cons.injEq, ih]
      tauto

theorem isPre_exists {p l : List Char} (h : isPre p l = true) :
    ∃ t, l = p ++ t := by
  refine ⟨l.drop p.length, ?_⟩
  conv_lhs => rw [← List.take_append_drop p.length l]
  rw [isPre_iff_take.mp h]

theorem isPre_of_append_le {p x r : List Char} (h : isPre p (x ++ r) = true)
    (hl : p.length ≤ x.length) : isPre p x = true := by
  rw [isPre_iff_take] at h ⊢
  rw [List.take_append_eq_append_take] at h
  rw [Nat.sub_eq_zero_of_le hl] at h
  simpa using h

theorem isPre_append_right {p x : List Char} (r : List Char)
    (h : isPre p x = true) : isPre p (x ++ r) = true := by
  obtain ⟨t, rfl⟩ := isPre_exists h
  rw [List.append_assoc]
  exact isPre_append p (t ++ r)

theorem isPre_nil {p : List Char} (h : isPre p [] = true) : p = [] := by
  cases p with
  | nil => rfl
  | cons a as => simp [isPre] at h

theorem findSub_isPre {m d : List Char} {i : Nat} (h : findSub m d = some i) :
    isPre m (d.drop i) = true := by
  induction d generalizing i with
  | nil =>
    simp only [findSub] at h
    split at h
    · next hm => cases h; subst hm; rfl
    · cases h
  | cons c tl ih =>
    simp only [findSub] at h
    split at h
    · next hp => cases h; simpa using hp
    · next hp =>
      rcases Option.map_eq_some'.mp h with ⟨j, hj, rfl⟩
      simpa using ih hj

theorem findSub_min {m d : List Char} {i : Nat} (h : findSub m d = some i) :
    ∀ j, j < i → isPre m (d.drop j) = false := by
  induction d generalizing i with
  | nil =>
    simp only [findSub] at h
    split at h
    · cases h; omega
    · cases h
  | cons c tl ih =>
    simp only [findSub] at h
    split at h
    · cases h; omega
    · next hp =>
      rcases Option.map_eq_some'.mp h with ⟨k, hk, rfl⟩
      intro j hj
      cases j with
      | zero => simpa using Bool.not_eq_true _ ▸ (by simpa using hp)
      | succ j' => simpa using ih hk j' (by omega)

theorem findSub_none {m d : List Char} (h : findSub m d = none) :
    ∀ j, isPre m (d.drop j) = false := by
  induction d with
  | nil =>
    simp only [findSub] at h
    split at h
    · cases h
    · next hm =>
      intro j
      simp only [List.drop_nil]
      cases m with
      | nil => simp at hm
      | cons a as => rfl
  | cons c tl ih =>
    simp only [findSub] at h
    split at h
    · cases h
    · next hp =>
      intro j
      cases j with
      | zero => simpa using Bool.not_eq_true _ ▸ (by simpa using hp)
      | succ j' =>
        simp only [List.drop_succ_cons]
        exact ih (by simpa using h) j'

theorem findSub_le {m d : List Char} {i : Nat} (h : findSub m d = some i) :
    i + m.length ≤ d.length := by
  induction d generalizing i with
  | nil =>
    simp only [findSub] at h
    split at h
    · next hm => cases h; simp [hm]
    · cases h
  | cons c tl ih =>
    simp only [findSub] at h
    split at h
    · next hp => cases h; simpa using isPre_length_le hp
    · next hp =>
      rcases Option.map_eq_some'.mp h with ⟨j, hj, rfl⟩
      have := ih hj
      simp only [List.length_cons]
      omega

theorem findSub_of {m d : List Char} {i : Nat}
    (hpre : isPre m (d.drop i) = true)
    (hmin : ∀ j, j < i → isPre m (d.drop j) = false) :
    findSub m d = some i := by
  induction d generalizing i with
  | nil =>
    have hm : m = [] := isPre_nil (by simpa using hpre)
    have hi : i = 0 := by
      by_contra hne
      have := hmin 0 (by omega)
      rw [List.drop_nil] at this
      subst hm
      simp [isPre] at this
    subst hm hi
    simp [findSub]
  | cons c tl ih =>
    cases i with
    | zero =>
      simp only [List.drop_zero] at hpre
      simp [findSub, hpre]
    | succ j =>
      have h0 : isPre m (c :: tl) = false := by simpa using hmin 0 (by omega)
      simp only [findSub, h0, if_neg (by simp [h0] : ¬ isPre m (c :: tl) = true)]
      have := ih (i := j) (by simpa using hpre)
        (fun k hk => by simpa using hmin (k + 1) (by omega))
      simp [this]

/-- Fueled worker for the record splitter.  One step mirrors one call of the
split function returned by splitAt (git.go, splitAt) as driven to completion
by a bufio.Scanner on a finished stream: a found marker emits the text before
it and consumes through the marker; at end of data a non-empty remainder is
emitted as a final token and an empty remainder ends the scan.  The fuel only
serves termination; `splitAtTokens` supplies enough of it. -/
theorem splitAtGo_succ (m : List Char) (f : Nat) (d : List Char) :
    splitAtGo m (f + 1) d =
      match findSub m d with
      | some i => d.take i :: splitAtGo m f (d.drop (i + m.length))
      | none => if d = [] then [] else [d] := rfl

theorem splitSepGo_succ (m : List Char) (f : Nat) (d : List Char) :
    splitSepGo m (f + 1) d =
      match findSub m d with
      | some i => d.take i :: splitSepGo m f (d.drop (i + m.length))
      | none => [d] := rfl

theorem splitTermGo_succ (m : List Char) (f : Nat) (d : List Char) :
    splitTermGo m (f + 1) d =
      match findSub m d with
      | some i => d.take i :: splitTermGo m f (d.drop (i + m.length))
      | none => [] := rfl

theorem countOccGo_succ (m : List Char) (f : Nat) (d : List Char) :
    countOccGo m (f + 1) d =
      match findSub m d with
      | some i => countOccGo m f (d.drop (i + m.length)) + 1
      | none => 0 := rfl

theorem restAfterGo_succ (m : List Char) (f : Nat) (d : List Char) :
    restAfterGo m (f + 1) d =
      match findSub m d with
      | some i => restAfterGo m f (d.drop (i + m.length))
      | none => d := rfl

theorem drop_lt_of_findSub {m d : List Char} {i : Nat} (hm : m ≠ [])
    (h : findSub m d = some i) :
    (d.drop (i + m.length)).length < d.length := by
  have h1 := findSub_le h
  have h2 : 0 < m.length := List.length_pos.mpr hm
  simp only [List.length_drop]
  omega

theorem splitAtGo_fuel {m : List Char} (hm : m ≠ []) :
    ∀ f g d, d.length < f → d.length < g → splitAtGo m f d = splitAtGo m g d := by
  intro f
  induction f with
  | zero => intro g d hf _; omega
  | succ f ih =>
    intro g d hf hg
    cases g with
    | zero => omega
    | succ g' =>
      cases hfs : findSub m d with
      | none => simp only [splitAtGo, hfs]
      | some i =>
        have hlt := drop_lt_of_findSub hm hfs
        simp only [splitAtGo, hfs]
        rw [ih g' _ (by omega) (by omega)]

theorem splitSepGo_fuel {m : List Char} (hm : m ≠ []) :
    ∀ f g d, d.length < f → d.length < g → splitSepGo m f d = splitSepGo m g d := by
  intro f
  induction f with
  | zero => intro g d hf _; omega
  | succ f ih =>
    intro g d hf hg
    cases g with
    | zero => omega
    | succ g' =>
      cases hfs : findSub m d with
      | none => simp only [splitSepGo, hfs]
      | some i =>
        have hlt := drop_lt_of_findSub hm hfs
        simp only [splitSepGo, hfs]
        rw [ih g' _ (by omega) (by omega)]

theorem splitTermGo_fuel {m : List Char} (hm : m ≠ []) :
    ∀ f g d, d.length < f → d.length < g → splitTermGo m f d = splitTermGo m g d := by
  intro f
  induction f with
  | zero => intro g d hf _; omega
  | succ f ih =>
    intro g d hf hg
    cases g with
    | zero => omega
    | succ g' =>
      cases hfs : findSub m d with
      | none => simp only [splitTermGo, hfs]
      | some i =>
        have hlt := drop_lt_of_findSub hm hfs
        simp only [splitTermGo, hfs]
        rw [ih g' _ (by omega) (by omega)]

theorem countOccGo_fuel {m : List Char} (hm : m ≠ []) :
    ∀ f g d, d.length < f → d.length < g → countOccGo m f d = countOccGo m g d := by
  intro f
  induction f with
  | zero => intro g d hf _; omega
  | succ f ih =>
    intro g d hf hg
    cases g with
    | zero => omega
    | succ g' =>
      cases hfs : findSub m d with
      | none => simp only [countOccGo, hfs]
      | some i =>
        have hlt := drop_lt_of_findSub hm hfs
        simp only [countOccGo, hfs]
        rw [ih g' _ (by omega) (by omega)]

theorem restAfterGo_fuel {m : List Char} (hm : m ≠ []) :
    ∀ f g d, d.length < f → d.length < g → restAfterGo m f d = restAfterGo m g d := by
  intro f
  induction f with
  | zero => intro g d hf _; omega
  | succ f ih =>
    intro g d hf hg
    cases g with
    | zero => omega
    | succ g' =>
      cases hfs : findSub m d with
      | none => simp only [restAfterGo, hfs]
      | some i =>
        have hlt := drop_lt_of_findSub hm hfs
        simp only [restAfterGo, hfs]
        rw [ih g' _ (by omega) (by omega)]

theorem splitAtTokens_cons {m d : List Char} {i : Nat} (hm : m ≠ [])
    (h : findSub m d = some i) :
    splitAtTokens m d = d.take i :: splitAtTokens m (d.drop (i + m.length)) := by
  have hlt := drop_lt_of_findSub hm h
  have step : splitAtTokens m d
      = d.take i :: splitAtGo m d.length (d.drop (i + m.length)) := by
    unfold splitAtTokens
    rw [splitAtGo_succ, h]
  rw [step]
  exact congrArg _ (splitAtGo_fuel hm d.length ((d.drop (i + m.length)).length + 1)
    _ (by omega) (by omega))

theorem splitAtTokens_none {m d : List Char} (h : findSub m d = none) :
    splitAtTokens m d = if d = [] then [] else [d] := by
  unfold splitAtTokens
  simp only [splitAtGo, h]

theorem splitSep_cons {m d : List Char} {i : Nat} (hm : m ≠ [])
    (h : findSub m d = some i) :
    splitSep m d = d.take i :: splitSep m (d.drop (i + m.length)) := by
  have hlt := drop_lt_of_findSub hm h
  have step : splitSep m d
      = d.take i :: splitSepGo m d.length (d.drop (i + m.length)) := by
    unfold splitSep
    rw [splitSepGo_succ, h]
  rw [step]
  exact congrArg _ (splitSepGo_fuel hm d.length ((d.drop (i + m.length)).length + 1)
    _ (by omega) (by omega))

theorem splitSep_none {m d : List Char} (h : findSub m d = none) :
    splitSep m d = [d] := by
  unfold splitSep
  simp only [splitSepGo, h]

theorem splitTerminated_cons {m d : List Char} {i : Nat} (hm : m ≠ [])
    (h : findSub m d = some i) :
    splitTerminated m d = d.take i :: splitTerminated m (d.drop (i + m.length)) := by
  have hlt := drop_lt_of_findSub hm h
  have step : splitTerminated m d
      = d.take i :: splitTermGo m d.length (d.drop (i + m.length)) := by
    unfold splitTerminated
    rw [splitTermGo_succ, h]
  rw [step]
  exact congrArg _ (splitTermGo_fuel hm d.length ((d.drop (i + m.length)).length + 1)
    _ (by omega) (by omega))

theorem splitTerminated_none {m d : List Char} (h : findSub m d = none) :
    splitTerminated m d = [] := by
  unfold splitTerminated
  simp only [splitTermGo, h]

theorem countOcc_cons {m d : List Char} {i : Nat} (hm : m ≠ [])
    (h : findSub m d = some i) :
    countOcc m d = countOcc m (d.drop (i + m.length)) + 1 := by
  have hlt := drop_lt_of_findSub hm h
  have step : countOcc m d
      = countOccGo m d.length (d.drop (i + m.length)) + 1 := by
    unfold countOcc
    rw [countOccGo_succ, h]
  rw [step]
  exact congrArg (· + 1) (countOccGo_fuel hm d.length ((d.drop (i + m.length)).length + 1)
    _ (by omega) (by omega))

theorem countOcc_none {m d : List Char} (h : findSub m d = none) :
    countOcc m d = 0 := by
  unfold countOcc
  simp only [countOccGo, h]

theorem restAfter_cons {m d : List Char} {i : Nat} (hm : m ≠ [])
    (h : findSub m d = some i) :
    restAfter m d = restAfter m (d.drop (i + m.length)) := by
  have hlt := drop_lt_of_findSub hm h
  have step : restAfter m d = restAfterGo m d.length (d.drop (i + m.length)) := by
    unfold restAfter
    rw [restAfterGo_succ, h]
  rw [step]
  exact restAfterGo_fuel hm d.length ((d.drop (i + m.length)).length + 1)
    _ (by omega) (by omega)

theorem restAfter_none {m d : List Char} (h : findSub m d = none) :
    restAfter m d = d := by
  unfold restAfter
  simp only [restAfterGo, h]

/-- A token `t` has no occurrence of the marker `m` starting strictly before
its end, even taking into account the marker that follows it in the stream:
no index `j < t.length` of `t ++ m` starts an occurrence of `m`.  Every
marker-terminated token emitted by the splitter has this property. -/
theorem noEarlyOcc_iff {m t : List Char} :
    noEarlyOcc m t = true ↔ ∀ j, j < t.length → isPre m ((t ++ m).drop j) = false := by
  simp [noEarlyOcc, List.all_eq_true, List.mem_range]

theorem findSub_nil {m : List Char} (hm : m ≠ []) : findSub m [] = none := by
  cases m with
  | nil => simp at hm
  | cons a as => simp [findSub]

theorem append_take (t x : List Char) : (t ++ x).take t.length = t := by
  rw [List.take_append_eq_append_take]
  simp

theorem append_drop2 (t u b : List Char) :
    (t ++ (u ++ b)).drop (t.length + u.length) = b := by
  rw [← List.append_assoc]
  have h : (t ++ u).length = t.length + u.length := by simp
  rw [← h, List.drop_append_eq_append_drop]
  simp

theorem drop_append_of_lt {x : List Char} (r : List Char) {j : Nat}
    (hj : j ≤ x.length) : (x ++ r).drop j = x.drop j ++ r := by
  rw [List.drop_append_eq_append_drop, Nat.sub_eq_zero_of_le hj, List.drop_zero]

/-- In a stream of the shape token ++ marker ++ rest where the token has no
early occurrence, the first occurrence of the marker is exactly at the end of
the token, whatever follows. -/
theorem findSub_append_first {m t : List Char} (_hm : m ≠ [])
    (hne : noEarlyOcc m t = true) (r : List Char) :
    findSub m (t ++ (m ++ r)) = some t.length := by
  apply findSub_of
  · rw [List.drop_left]
    exact isPre_append m r
  · intro j hj
    have hassoc : t ++ (m ++ r) = (t ++ m) ++ r := (List.append_assoc t m r).symm
    rw [hassoc, drop_append_of_lt r (by simp; omega)]
    have hfalse := noEarlyOcc_iff.mp hne j hj
    by_contra hc
    have htrue : isPre m ((t ++ m).drop j ++ r) = true := by
      cases hcc : isPre m ((t ++ m).drop j ++ r) <;> simp_all
    have hlen : m.length ≤ ((t ++ m).drop j).length := by
      simp [List.length_drop, List.length_append]
      omega
    rw [isPre_of_append_le htrue hlen] at hfalse
    cases hfalse

/-- Every marker-terminated token of the splitter satisfies `noEarlyOcc`. -/
theorem splitTerminated_noEarly {m : List Char} (hm : m ≠ []) :
    ∀ n d t, d.length ≤ n → t ∈ splitTerminated m d → noEarlyOcc m t = true := by
  intro n
  induction n with
  | zero =>
    intro d t hlen ht
    have hd : d = [] := List.eq_nil_of_length_eq_zero (by omega)
    subst hd
    rw [splitTerminated_none (findSub_nil hm)] at ht
    simp at ht
  | succ n ih =>
    intro d t hlen ht
    cases hfs : findSub m d with
    | none =>
      rw [splitTerminated_none hfs] at ht
      simp at ht
    | some i =>
      have hlt := drop_lt_of_findSub hm hfs
      rw [splitTerminated_cons hm hfs] at ht
      simp only [List.mem_cons] at ht
      cases ht with
      | inr h2 => exact ih _ t (by omega) h2
      | inl h1 =>
        subst h1
        rw [noEarlyOcc_iff]
        intro j hj
        have hle := findSub_le hfs
        have hlen2 : (d.take i).length = i := by
          simp [List.length_take]
          omega
        rw [hlen2] at hj
        have hpre := findSub_isPre hfs
        obtain ⟨s, hs⟩ := isPre_exists hpre
        have hd : d = d.take i ++ (m ++ s) := by
          conv_lhs => rw [← List.take_append_drop i d]
          rw [hs]
        have hmin := findSub_min hfs j (by omega)
        by_contra hc
        have htrue : isPre m ((d.take i ++ m).drop j) = true := by
          cases hcc : isPre m ((d.take i ++ m).drop j) with
          | true => rfl
          | false => exact absurd hcc hc
        have hdj : d.drop j = (d.take i).drop j ++ (m ++ s) := by
          conv_lhs => rw [hd]
          exact drop_append_of_lt _ (by omega)
        have htj : (d.take i ++ m).drop j = (d.take i).drop j ++ m := by
          exact drop_append_of_lt _ (by omega)
        rw [htj] at htrue
        have h3 : isPre m ((d.take i).drop j ++ (m ++ s)) = true := by
          have := isPre_append_right s htrue
          rwa [List.append_assoc] at this
        rw [hdj, h3] at hmin
        cases hmin

/-- Splitting the rejoined stream of tokens that all satisfy `noEarlyOcc`
recovers exactly those tokens. -/
theorem splitAt_joinEach {m : List Char} (hm : m ≠ []) :
    ∀ ts : List (List Char), (∀ t ∈ ts, noEarlyOcc m t = true) →
      splitAtTokens m (joinEach m ts) = ts := by
  intro ts
  induction ts with
  | nil =>
    intro _
    rw [show joinEach m [] = [] from rfl, splitAtTokens_none (findSub_nil hm)]
    simp
  | cons t ts ih =>
    intro hall
    have hne := hall t (by simp)
    have hjoin : joinEach m (t :: ts) = t ++ (m ++ joinEach m ts) := by
      simp [joinEach]
    rw [hjoin, splitAtTokens_cons hm (findSub_append_first hm hne _)]
    rw [append_take, append_drop2, ih (fun u hu => hall u (by simp [hu]))]

/-- The splitter output is the marker-terminated tokens followed by the
marker-less remainder (as one final token) when the latter is non-empty. -/
theorem splitAt_eq_terminated_aux {m : List Char} (hm : m ≠ []) :
    ∀ n d, d.length ≤ n →
      splitAtTokens m d = splitTerminated m d ++
        (if restAfter m d = [] then [] else [restAfter m d]) := by
  intro n
  induction n with
  | zero =>
    intro d hlen
    have hd : d = [] := List.eq_nil_of_length_eq_zero (by omega)
    subst hd
    rw [splitAtTokens_none (findSub_nil hm), splitTerminated_none (findSub_nil hm),
      restAfter_none (findSub_nil hm)]
    simp
  | succ n ih =>
    intro d hlen
    cases hfs : findSub m d with
    | none =>
      rw [splitAtTokens_none hfs, splitTerminated_none hfs, restAfter_none hfs]
      by_cases hd : d = [] <;> simp [hd]
    | some i =>
      have hlt := drop_lt_of_findSub hm hfs
      rw [splitAtTokens_cons hm hfs, splitTerminated_cons hm hfs,
        restAfter_cons hm hfs, ih _ (by omega)]
      simp

/-- The remainder after the last consumed marker contains no marker. -/
theorem restAfter_no_marker_aux {m : List Char} (hm : m ≠ []) :
    ∀ n d, d.length ≤ n → findSub m (restAfter m d) = none := by
  intro n
  induction n with
  | zero =>
    intro d hlen
    have hd : d = [] := List.eq_nil_of_length_eq_zero (by omega)
    subst hd
    rw [restAfter_none (findSub_nil hm)]
    exact findSub_nil hm
  | succ n ih =>
    intro d hlen
    cases hfs : findSub m d with
    | none => rw [restAfter_none hfs]; exact hfs
    | some i =>
      have hlt := drop_lt_of_findSub hm hfs
      rw [restAfter_cons hm hfs]
      exact ih _ (by omega)

theorem splitSep_ne_nil {m : List Char} (hm : m ≠ []) (d : List Char) :
    splitSep m d ≠ [] := by
  cases hfs : findSub m d with
  | none => rw [splitSep_none hfs]; simp
  | some i => rw [splitSep_cons hm hfs]; simp

/-- strings.Split peels off a leading field that has no early occurrence. -/
theorem splitSep_append {m a : List Char} (hm : m ≠ [])
    (hne : noEarlyOcc m a = true) (b : List Char) :
    splitSep m (a ++ (m ++ b)) = a :: splitSep m b := by
  rw [splitSep_cons hm (findSub_append_first hm hne b)]
  rw [append_take, append_drop2]

/-- The number of fields strings.Split returns is the number of separator
occurrences plus one. -/
theorem splitSep_length_aux {m : List Char} (hm : m ≠ []) :
    ∀ n d, d.length ≤ n → (splitSep m d).length = countOcc m d + 1 := by
  intro n
  induction n with
  | zero =>
    intro d hlen
    have hd : d = [] := List.eq_nil_of_length_eq_zero (by omega)
    subst hd
    rw [splitSep_none (findSub_nil hm), countOcc_none (findSub_nil hm)]
    simp
  | succ n ih =>
    intro d hlen
    cases hfs : findSub m d with
    | none => rw [splitSep_none hfs, countOcc_none hfs]; simp
    | some i =>
      have hlt := drop_lt_of_findSub hm hfs
      rw [splitSep_cons hm hfs, countOcc_cons hm hfs, List.length_cons,
        ih (d.drop (i + m.length)) (by omega)]

/-- Go strings.Trim(s, "\"") — remove all leading and trailing quote
characters (used on commit records in parseCommitLog and parseLogOutput). -/
theorem parseCommitLog_eq {E CM : Type} (mp : List Char → List Char → Except E CM)
    (commit c0 c1 c2 c3 c4 c5 : List Char) (rest : List (List Char))
    (hc : splitSep logSeparator (trimGoQuote commit)
      = c0 :: c1 :: c2 :: c3 :: c4 :: c5 :: rest) :
    parseCommitLog mp commit = some (match mp c4 c5 with
      | Except.error e => Except.error e
      | Except.ok message =>
        Except.ok { Date := c0, Timestamp := (goAtoi c1).1,
                    AuthorName := c2, Hash := c3, Message := message }) := by
  unfold parseCommitLog
  rw [hc]
  rfl

theorem list_six {α : Type} {l : List α} (h : l.length = 6) :
    ∃ a b c d e f, l = [a, b, c, d, e, f] := by
  cases l with
  | nil => simp at h
  | cons a l1 =>
  cases l1 with
  | nil => simp at h
  | cons b l2 =>
  cases l2 with
  | nil => simp at h
  | cons c l3 =>
  cases l3 with
  | nil => simp at h
  | cons d l4 =>
  cases l4 with
  | nil => simp at h
  | cons e l5 =>
  cases l5 with
  | nil => simp at h
  | cons f l6 =>
  cases l6 with
  | nil => exact ⟨a, b, c, d, e, f, rfl⟩
  | cons g l7 => simp at h

/-- Claim C1 (counterexample): on the non-empty input "abc", which contains
no occurrence of the end-of-record marker, the Record Splitter consumed at a
finished stream boundary yields ONE record — the whole input — not zero
records: the marker-less tail is returned, not discarded.  Feeding the same
input through parseLogOutput does not discard it either: it reaches
parseCommitLog and panics (modelled as none). -/
theorem splitter_tail_returned_cex :
    findSub endLine (strL "abc") = none ∧ strL "abc" ≠ [] ∧
    splitAtTokens endLine (strL "abc") = [strL "abc"] ∧
    (parseLogOutput mpPair (strL "abc")).isSome = false := by
  refine ⟨by decide, by decide, by decide, by decide⟩

/-- Claim C1 (amended): on empty input the Record Splitter yields zero
records, and on non-empty input with no occurrence of the end-of-record
marker it yields exactly one record, the entire input (the marker-less tail
is returned, not discarded). -/
theorem splitter_no_marker_amended :
    ∀ d : List Char, findSub endLine d = none →
      splitAtTokens endLine d = if d = [] then [] else [d] := by
  intro d h
  exact splitAtTokens_none h

/-- Witness for splitter_no_marker_amended at the concrete input "xy". -/
theorem splitter_no_marker_amended_w :
    splitAtTokens endLine (strL "xy") =
      if strL "xy" = ([] : List Char) then [] else [strL "xy"] :=
  splitter_no_marker_amended (strL "xy") (by decide)

/-- Claim C4 (confirmed): the Commit Log Parser applied to the record
"2024-01-02###1704153600###Jane Doe###abc1234###fix: bug###body text"
produces date "2024-01-02", timestamp 1704153600, author name "Jane Doe",
hash "abc1234", and as message exactly what the message processor's Parse
returns for subject "fix: bug" and body "body text". -/
theorem commit_example_record {E CM : Type}
    (mp : List Char → List Char → Except E CM) (msg : CM)
    (hmp : mp (strL "fix: bug") (strL "body text") = Except.ok msg) :
    parseCommitLog mp
      (strL "2024-01-02###1704153600###Jane Doe###abc1234###fix: bug###body text")
      = some (Except.ok { Date := strL "2024-01-02", Timestamp := 1704153600,
                          AuthorName := strL "Jane Doe", Hash := strL "abc1234",
                          Message := msg }) := by
  rw [parseCommitLog_eq mp _ (strL "2024-01-02") (strL "1704153600")
    (strL "Jane Doe") (strL "abc1234") (strL "fix: bug") (strL "body text") []
    (by decide), hmp]
  have ha : (goAtoi (strL "1704153600")).1 = 1704153600 := by decide
  rw [ha]

/-- Witness for commit_example_record with the concrete recording message
processor. -/
theorem commit_example_record_w :
    parseCommitLog mpPair
      (strL "2024-01-02###1704153600###Jane Doe###abc1234###fix: bug###body text")
      = some (Except.ok { Date := strL "2024-01-02", Timestamp := 1704153600,
                          AuthorName := strL "Jane Doe", Hash := strL "abc1234",
                          Message := (strL "fix: bug", strL "body text") }) :=
  commit_example_record mpPair (strL "fix: bug", strL "body text") rfl

/-- Claim C5 (confirmed): a record with six fields whose timestamp field is
not a syntactically valid integer parses successfully (given that the
message processor accepts the subject/body fields) and yields timestamp 0:
the strconv.Atoi error is deliberately discarded. -/
theorem commit_bad_timestamp_zero {E CM : Type}
    (mp : List Char → List Char → Except E CM) (commit : List Char) (msg : CM)
    (h6 : (splitSep logSeparator (trimGoQuote commit)).length = 6)
    (hts : goIntSyntax ((splitSep logSeparator (trimGoQuote commit)).getD 1 []) = false)
    (hmp : mp ((splitSep logSeparator (trimGoQuote commit)).getD 4 [])
              ((splitSep logSeparator (trimGoQuote commit)).getD 5 [])
        = Except.ok msg) :
    ∃ entry, parseCommitLog mp commit = some (Except.ok entry) ∧
      entry.Timestamp = 0 := by
  obtain ⟨c0, c1, c2, c3, c4, c5, hc⟩ := list_six h6
  rw [hc] at hts hmp
  have hts' : goIntSyntax c1 = false := hts
  have hmp' : mp c4 c5 = Except.ok msg := hmp
  have hatoi : goAtoi c1 = (0, false) := by
    unfold goAtoi
    rw [hts']
    simp
  refine ⟨{ Date := c0, Timestamp := (goAtoi c1).1, AuthorName := c2,
            Hash := c3, Message := msg }, ?_, ?_⟩
  · rw [parseCommitLog_eq mp commit c0 c1 c2 c3 c4 c5 [] hc, hmp']
  · show (goAtoi c1).1 = 0
    rw [hatoi]

/-- Witness for commit_bad_timestamp_zero on the record
"d###xx###a###h###s###b". -/
theorem commit_bad_timestamp_zero_w :
    ∃ entry, parseCommitLog mpPair (strL "d###xx###a###h###s###b")
      = some (Except.ok entry) ∧ entry.Timestamp = 0 :=
  commit_bad_timestamp_zero mpPair (strL "d###xx###a###h###s###b")
    (strL "s", strL "b") (by decide) (by decide) rfl

/-- Claim C7 (counterexample): a DateBoundary range whose start and end are
both empty produces no "--since" and no "--until" argument at all — the
Range Resolver skips the range arguments entirely, so neither is the "until"
argument equal to the (empty) end nor is a "since" argument emitted. -/
theorem date_range_both_empty_cex :
    buildLogParams { rangeType := LogRangeType.date, start := [], end_ := [] }
      = logBaseParams ∧
    strL "--since" ∉
      buildLogParams { rangeType := LogRangeType.date, start := [], end_ := [] } ∧
    strL "--until" ∉
      buildLogParams { rangeType := LogRangeType.date, start := [], end_ := [] } := by
  refine ⟨by decide, by decide, by decide⟩

/-- Claim C7 (amended): when start or end is non-empty, a DateBoundary range
emits "--since" start and "--until" (addDay end), where addDay advances a
valid "YYYY-MM-DD" end by one calendar day and passes any other value
(including the empty string) through unchanged; when both boundaries are
empty no range arguments are emitted. -/
theorem date_range_until_amended :
    (∀ s e : List Char, s ≠ [] ∨ e ≠ [] →
      buildLogParams { rangeType := LogRangeType.date, start := s, end_ := e } =
        logBaseParams ++ [strL "--since", s, strL "--until", addDay e]) ∧
    buildLogParams { rangeType := LogRangeType.date, start := [], end_ := [] }
      = logBaseParams ∧
    (∀ e t, parseYMD e = some t → addDay e = formatYMD (addOneDay t)) ∧
    (∀ e, parseYMD e = none → addDay e = e) ∧
    addDay (strL "2024-05-01") = strL "2024-05-02" ∧
    addDay [] = [] := by
  refine ⟨?_, by decide, ?_, ?_, by decide, by decide⟩
  · intro s e h
    unfold buildLogParams
    rw [if_pos h]
  · intro e t h
    have he : e ≠ [] := by
      intro hh
      subst hh
      exact Option.noConfusion h
    unfold addDay
    rw [if_neg he, h]
  · intro e h
    unfold addDay
    by_cases he : e = []
    · simp [he]
    · rw [if_neg he, h]

/-- Witness for date_range_until_amended on a concrete non-empty date range
and a concrete non-date end value. -/
theorem date_range_until_amended_w :
    buildLogParams { rangeType := LogRangeType.date, start := strL "2024-01-01",
                     end_ := strL "2024-05-01" } =
      logBaseParams ++ [strL "--since", strL "2024-01-01", strL "--until",
        addDay (strL "2024-05-01")] ∧
    addDay (strL "abc") = strL "abc" :=
  ⟨date_range_until_amended.1 (strL "2024-01-01") (strL "2024-05-01")
      (Or.inl (by decide)),
   date_range_until_amended.2.2.2.1 (strL "abc") (by decide)⟩

/-- Claim C8 (confirmed): for TagBoundary and HashBoundary ranges the Range
Resolver emits no range argument when both boundaries are empty, the single
argument end when only start is empty, and the single argument
start ++ ".." ++ end — with end replaced by "HEAD" when empty — when start
is non-empty. -/
theorem ref_range_args :
    ∀ s e : List Char,
      (buildLogParams { rangeType := LogRangeType.tag, start := s, end_ := e } =
        if s = [] ∧ e = [] then logBaseParams
        else logBaseParams ++
          [if s = [] then e
           else s ++ strL ".." ++ (if e = [] then strL "HEAD" else e)]) ∧
      (buildLogParams { rangeType := LogRangeType.hash, start := s, end_ := e } =
        if s = [] ∧ e = [] then logBaseParams
        else logBaseParams ++
          [if s = [] then e
           else s ++ strL ".." ++ (if e = [] then strL "HEAD" else e)]) := by
  intro s e
  constructor <;>
  · unfold buildLogParams str
    by_cases hs : s = [] <;> by_cases he : e = [] <;> simp [hs, he]

/-- Claim C9 (confirmed): IsDetached returns (true, nil) exactly when the
symbolic-ref invocation fails with empty captured output; on failure with
non-empty output it returns false together with an error whose message is
the captured output; on success it returns (false, nil). -/
theorem is_detached_spec :
    ∀ o : CmdOutcome,
      (isDetached o = (true, none) ↔ o.failed = true ∧ o.output = []) ∧
      (o.failed = true → o.output ≠ [] → isDetached o = (false, some o.output)) ∧
      (o.failed = false → isDetached o = (false, none)) := by
  intro o
  obtain ⟨f, out⟩ := o
  cases f <;> by_cases hout : out = [] <;> simp [isDetached, hout]

/-- Witness for is_detached_spec at the three concrete invocation
outcomes. -/
theorem is_detached_spec_w :
    isDetached { failed := true, output := [] } = (true, none) ∧
    isDetached { failed := true, output := strL "boom" }
      = (false, some (strL "boom")) ∧
    isDetached { failed := false, output := [] } = (false, none) :=
  ⟨(is_detached_spec _).1.mpr ⟨rfl, rfl⟩,
   (is_detached_spec _).2.1 rfl (by decide),
   (is_detached_spec _).2.2 rfl⟩

theorem findSub_singleton_not_mem {c : Char} {d : List Char} (h : c ∉ d) :
    findSub [c] d = none := by
  induction d with
  | nil => simp [findSub]
  | cons b tl ih =>
    have hcb : c ≠ b := fun hh => h (by simp [hh])
    have hmem : c ∉ tl := fun hh => h (by simp [hh])
    simp [findSub, isPre, hcb, ih hmem]

theorem findSub_singleton_mem {c : Char} {d : List Char} (h : c ∈ d) :
    ∃ i, findSub [c] d = some i := by
  induction d with
  | nil => simp at h
  | cons b tl ih =>
    by_cases hcb : c = b
    · subst hcb
      exact ⟨0, by simp [findSub, isPre]⟩
    · have hmem : c ∈ tl := by
        rcases List.mem_cons.mp h with h1 | h2
        · exact absurd h1 hcb
        · exact h2
      obtain ⟨i, hi⟩ := ih hmem
      have hpre : isPre [c] (b :: tl) = false := by simp [isPre, hcb]
      exact ⟨i + 1, by simp [findSub, hpre, hi]⟩

theorem noEarlyOcc_singleton {c : Char} {a : List Char} (h : c ∉ a) :
    noEarlyOcc [c] a = true := by
  rw [noEarlyOcc_iff]
  intro j hj
  rw [drop_append_of_lt [c] (le_of_lt hj)]
  cases haj : a.drop j with
  | nil =>
    have : (a.drop j).length = a.length - j := List.length_drop _ _
    rw [haj] at this
    simp at this
    omega
  | cons hd tl =>
    have hmem : hd ∈ a := by
      have hin : hd ∈ a.drop j := by
        rw [haj]
        simp
      exact List.mem_of_mem_drop hin
    have hne : c ≠ hd := fun hh => h (hh ▸ hmem)
    simp [isPre, hne]

/-- Claim C2 (counterexample): the input "x~~" splits into the single record
"x~~"; rejoining with a trailing marker gives "x~~~~~", which re-splits into
the two records "x" and "~~" — the round-trip fails when the marker-less
trailing remainder is kept as a record. -/
theorem splitter_roundtrip_cex :
    splitAtTokens endLine (strL "x~~") = [strL "x~~"] ∧
    joinEach endLine [strL "x~~"] = strL "x~~~~~" ∧
    splitAtTokens endLine (strL "x~~~~~") = [strL "x", strL "~~"] ∧
    [strL "x", strL "~~"] ≠ [strL "x~~"] := by
  refine ⟨by decide, by decide, by decide, by decide⟩

/-- Claim C2 (amended): the splitter output is its marker-terminated records
followed by the marker-less trailing remainder as one extra record when that
remainder is non-empty; the remainder contains no marker; and the
marker-terminated records (the output with that trailing remainder dropped)
round-trip exactly: joining each of them with a trailing marker and
re-splitting yields the same sequence. -/
theorem splitter_roundtrip_terminated :
    ∀ m d : List Char, m ≠ [] →
      splitAtTokens m d = splitTerminated m d ++
        (if restAfter m d = [] then [] else [restAfter m d]) ∧
      findSub m (restAfter m d) = none ∧
      splitAtTokens m (joinEach m (splitTerminated m d)) = splitTerminated m d := by
  intro m d hm
  exact ⟨splitAt_eq_terminated_aux hm d.length d le_rfl,
    restAfter_no_marker_aux hm d.length d le_rfl,
    splitAt_joinEach hm _
      (fun t ht => splitTerminated_noEarly hm d.length d t le_rfl ht)⟩

/-- Witness for splitter_roundtrip_terminated at the end-of-record marker
and a concrete input with two terminated records and a marker-less tail. -/
theorem splitter_roundtrip_terminated_w :
    splitAtTokens endLine (strL "a~~~b~~~tail")
      = splitTerminated endLine (strL "a~~~b~~~tail") ++
        (if restAfter endLine (strL "a~~~b~~~tail") = [] then []
         else [restAfter endLine (strL "a~~~b~~~tail")]) ∧
    findSub endLine (restAfter endLine (strL "a~~~b~~~tail")) = none ∧
    splitAtTokens endLine (joinEach endLine
        (splitTerminated endLine (strL "a~~~b~~~tail")))
      = splitTerminated endLine (strL "a~~~b~~~tail") :=
  splitter_roundtrip_terminated endLine (strL "a~~~b~~~tail") (by decide)

theorem splitSep_joinEach {m : List Char} (hm : m ≠ []) :
    ∀ fs body, (∀ t ∈ fs, noEarlyOcc m t = true) →
      splitSep m (joinEach m fs ++ body) = fs ++ splitSep m body := by
  intro fs
  induction fs with
  | nil =>
    intro body _
    simp [joinEach]
  | cons t ts ih =>
    intro body hall
    have hshape : joinEach m (t :: ts) ++ body
        = t ++ (m ++ (joinEach m ts ++ body)) := by
      simp [joinEach]
    rw [hshape, splitSep_append hm (hall t (by simp)) _,
      ih body (fun u hu => hall u (by simp [hu]))]
    rfl

/-- Claim C3 (counterexample): on the record "d###1###a###h###s###b1###b2",
whose body region "b1###b2" contains the field separator, the Commit Log
Parser hands the message processor the body "b1" — only the sixth
separator-delimited segment — and not the full remainder "b1###b2". -/
theorem commit_body_truncated_cex :
    parseCommitLog mpPair (strL "d###1###a###h###s###b1###b2")
      = some (Except.ok { Date := strL "d", Timestamp := 1,
                          AuthorName := strL "a", Hash := strL "h",
                          Message := (strL "s", strL "b1") }) ∧
    strL "b1" ≠ strL "b1###b2" := by
  exact ⟨rfl, by decide⟩

/-- Claim C3 (amended): a record of the shape
f0 ## f1 ## f2 ## f3 ## f4 ## body (## the field separator, f0..f4 free of
early separator occurrences, no surrounding quotes) is parsed with date f0,
timestamp from f1, author f2, hash f3, subject f4 — but the body handed to
the message processor is only the first separator-delimited segment of the
body region, not the entire remaining content: content after a further
separator occurrence inside the body is discarded. -/
theorem commit_fields_decomposition {E CM : Type}
    (mp : List Char → List Char → Except E CM)
    (f0 f1 f2 f3 f4 body : List Char)
    (hf : ∀ t ∈ [f0, f1, f2, f3, f4], noEarlyOcc logSeparator t = true)
    (hq : trimGoQuote (joinEach logSeparator [f0, f1, f2, f3, f4] ++ body)
      = joinEach logSeparator [f0, f1, f2, f3, f4] ++ body) :
    parseCommitLog mp (joinEach logSeparator [f0, f1, f2, f3, f4] ++ body)
      = some (match mp f4 ((splitSep logSeparator body).headI) with
        | Except.error e => Except.error e
        | Except.ok message =>
          Except.ok { Date := f0, Timestamp := (goAtoi f1).1,
                      AuthorName := f2, Hash := f3, Message := message }) := by
  have hm : logSeparator ≠ [] := by decide
  have hsplit := splitSep_joinEach hm [f0, f1, f2, f3, f4] body hf
  have hne := splitSep_ne_nil hm body
  obtain ⟨b0, bs, hb⟩ : ∃ b0 bs, splitSep logSeparator body = b0 :: bs := by
    cases hsb : splitSep logSeparator body with
    | nil => exact absurd hsb hne
    | cons b0 bs => exact ⟨b0, bs, rfl⟩
  have hb0 : (splitSep logSeparator body).headI = b0 := by
    rw [hb]
    rfl
  rw [parseCommitLog_eq mp _ f0 f1 f2 f3 f4 b0 bs
    (by rw [hq, hsplit, hb]; rfl), hb0]

/-- Witness for commit_fields_decomposition at concrete fields with a body
region containing the separator. -/
theorem commit_fields_decomposition_w :
    parseCommitLog mpPair
      (joinEach logSeparator [strL "d", strL "1", strL "a", strL "h", strL "s"]
        ++ strL "b1###b2")
      = some (match mpPair (strL "s")
            ((splitSep logSeparator (strL "b1###b2")).headI) with
        | Except.error e => Except.error e
        | Except.ok message =>
          Except.ok { Date := strL "d", Timestamp := (goAtoi (strL "1")).1,
                      AuthorName := strL "a", Hash := strL "h",
                      Message := message }) :=
  commit_fields_decomposition mpPair (strL "d") (strL "1") (strL "a")
    (strL "h") (strL "s") (strL "b1###b2") (by decide) (by decide)

theorem dropCR_eq {l : List Char} (h : l.getLast? ≠ some '\r') :
    dropCR l = l := by
  unfold dropCR
  split
  · next heq => exact absurd heq h
  · rfl

theorem getLast_line {p1 p2 : List Char} (h2 : '\r' ∉ p2) :
    (p1 ++ '#' :: p2).getLast? ≠ some '\r' := by
  rcases List.eq_nil_or_concat p2 with rfl | ⟨q, c, rfl⟩
  · have hshape : p1 ++ '#' :: ([] : List Char) = p1 ++ ['#'] := rfl
    rw [hshape, List.getLast?_concat]
    simp
  · have hshape : p1 ++ '#' :: q.concat c = (p1 ++ '#' :: q) ++ [c] := by
      simp
    rw [hshape, List.getLast?_concat]
    have hc : c ≠ '\r' := fun hh => h2 (by simp [hh])
    simp [hc]

theorem splitAtTokens_joinLines {ls : List (List Char)}
    (h : ∀ l ∈ ls, '\n' ∉ l ∧ l ≠ []) :
    splitAtTokens ['\n'] (joinLines ls) = ls := by
  induction ls with
  | nil =>
    rw [show joinLines [] = [] from rfl,
      splitAtTokens_none (findSub_nil (by decide))]
    simp
  | cons a ls ih =>
    cases ls with
    | nil =>
      obtain ⟨hna, hne⟩ := h a (by simp)
      rw [show joinLines [a] = a from rfl,
        splitAtTokens_none (findSub_singleton_not_mem hna), if_neg hne]
    | cons b t =>
      obtain ⟨hna, _⟩ := h a (by simp)
      have hjoin : joinLines (a :: b :: t) = a ++ (['\n'] ++ joinLines (b :: t)) := by
        simp [joinLines]
      rw [hjoin, splitAtTokens_cons (by decide)
        (findSub_append_first (by decide) (noEarlyOcc_singleton hna) _)]
      rw [append_take, append_drop2, ih (fun l hl => h l (by simp [hl]))]

theorem goLines_joinLines {ls : List (List Char)}
    (h : ∀ l ∈ ls, '\n' ∉ l ∧ l ≠ [] ∧ l.getLast? ≠ some '\r') :
    goLines (joinLines ls) = ls := by
  unfold goLines
  rw [splitAtTokens_joinLines (fun l hl => ⟨(h l hl).1, (h l hl).2.1⟩)]
  induction ls with
  | nil => rfl
  | cons a ls ih =>
    rw [List.map_cons, dropCR_eq (h a (by simp)).2.2,
      ih (fun l hl => h l (by simp [hl]))]

theorem processTagLine_pair {p1 p2 : List Char} (h1 : '#' ∉ p1) (h2 : '#' ∉ p2)
    (htrim : trimSpace (p1 ++ '#' :: p2) = p1 ++ '#' :: p2)
    (hdate : goTimeParseTag p1 = none) :
    processTagLine (p1 ++ '#' :: p2)
      = some (some { Name := p2, Date := zeroGoTime }) := by
  have hne : p1 ++ '#' :: p2 ≠ [] := by simp
  have hs1 : splitSep ['#'] (p1 ++ '#' :: p2) = p1 :: splitSep ['#'] p2 := by
    have hshape : p1 ++ '#' :: p2 = p1 ++ (['#'] ++ p2) := by simp
    rw [hshape]
    exact splitSep_append (by decide) (noEarlyOcc_singleton h1) p2
  have hs2 : splitSep ['#'] p2 = [p2] :=
    splitSep_none (findSub_singleton_not_mem h2)
  unfold processTagLine
  rw [htrim, if_neg hne, hs1, hs2]
  have hfin : (some (some { Name := p2,
                            Date := (goTimeParseTag p1).getD zeroGoTime })
        : Option (Option GitTag))
      = some (some { Name := p2, Date := zeroGoTime }) := by
    rw [hdate]
    rfl
  exact hfin

theorem parseTagsGo_pairs :
    ∀ ps : List (List Char × List Char),
      (∀ p ∈ ps, '#' ∉ p.1 ∧ '#' ∉ p.2 ∧
        trimSpace (p.1 ++ '#' :: p.2) = p.1 ++ '#' :: p.2 ∧
        goTimeParseTag p.1 = none) →
      parseTagsGo (ps.map (fun q => q.1 ++ '#' :: q.2))
        = some (ps.map (fun q => { Name := q.2, Date := zeroGoTime })) := by
  intro ps
  induction ps with
  | nil =>
    intro _
    rfl
  | cons p ps ih =>
    intro hall
    obtain ⟨h1, h2, htrim, hdate⟩ := hall p (by simp)
    have hp := processTagLine_pair h1 h2 htrim hdate
    show parseTagsGo ((p.1 ++ '#' :: p.2) :: ps.map (fun q => q.1 ++ '#' :: q.2))
      = _
    rw [show parseTagsGo ((p.1 ++ '#' :: p.2)
          :: ps.map (fun q => q.1 ++ '#' :: q.2))
        = match processTagLine (p.1 ++ '#' :: p.2) with
          | none => none
          | some none => parseTagsGo (ps.map (fun q => q.1 ++ '#' :: q.2))
          | some (some t) =>
            (parseTagsGo (ps.map (fun q => q.1 ++ '#' :: q.2))).map (t :: ·)
        from rfl, hp, ih (fun q hq => hall q (by simp [hq]))]
    rfl

/-- Claim C6 (counterexample): the line "x#y#z" is of the form
date-part '#' name for the date part "x#y" (unparseable) and the name "z",
yet the Tag Parser yields the name "y" — the segment between the first and
second '#' — and not the correct name "z". -/
theorem tag_hash_in_date_cex :
    goTimeParseTag (strL "x#y") = none ∧
    strL "x#y#z" = strL "x#y" ++ '#' :: strL "z" ∧
    parseTagsOutput (strL "x#y#z")
      = some [{ Name := strL "y", Date := zeroGoTime }] ∧
    strL "y" ≠ strL "z" := by
  refine ⟨by decide, by decide, by decide, by decide⟩

/-- Claim C6 (amended): for every sequence of already-trimmed lines of the
form date-part '#' name in which date part and name contain no '#', no
newline and the name no trailing carriage return, and every date part is
unparseable, the Tag Parser neither errors nor drops a record: it yields one
TagEntry per line, in input line order, with the correct name and the
zero-value date. -/
theorem tag_parser_lenient_amended :
    ∀ ps : List (List Char × List Char),
      (∀ p ∈ ps, '#' ∉ p.1 ∧ '#' ∉ p.2 ∧ '\n' ∉ p.1 ∧ '\n' ∉ p.2 ∧
        '\r' ∉ p.2 ∧ trimSpace (p.1 ++ '#' :: p.2) = p.1 ++ '#' :: p.2 ∧
        goTimeParseTag p.1 = none) →
      parseTagsOutput (joinLines (ps.map (fun q => q.1 ++ '#' :: q.2)))
        = some (ps.map (fun q => { Name := q.2, Date := zeroGoTime })) := by
  intro ps hall
  have hls : ∀ l ∈ ps.map (fun q => q.1 ++ '#' :: q.2),
      '\n' ∉ l ∧ l ≠ [] ∧ l.getLast? ≠ some '\r' := by
    intro l hl
    simp only [List.mem_map] at hl
    obtain ⟨q, hq, rfl⟩ := hl
    obtain ⟨h1, h2, hn1, hn2, hr2, htrim, hdate⟩ := hall q hq
    refine ⟨?_, by simp, getLast_line hr2⟩
    simp only [List.mem_append, List.mem_cons]
    push_neg
    exact ⟨hn1, by decide, hn2⟩
  unfold parseTagsOutput
  rw [goLines_joinLines hls]
  exact parseTagsGo_pairs ps (fun q hq => by
    obtain ⟨h1, h2, _, _, _, htrim, hdate⟩ := hall q hq
    exact ⟨h1, h2, htrim, hdate⟩)

/-- Witness for tag_parser_lenient_amended on two concrete lines with
unparseable dates. -/
theorem tag_parser_lenient_amended_w :
    parseTagsOutput (joinLines
      (([(strL "baddate", strL "v1.2.3"), (strL "2024", strL "v2")]).map
        (fun q => q.1 ++ '#' :: q.2)))
      = some (([(strL "baddate", strL "v1.2.3"), (strL "2024", strL "v2")]).map
          (fun q => { Name := q.2, Date := zeroGoTime })) :=
  tag_parser_lenient_amended
    [(strL "baddate", strL "v1.2.3"), (strL "2024", strL "v2")] (by decide)

theorem parseCommitLog_oob {E CM : Type} (mp : List Char → List Char → Except E CM)
    (commit : List Char)
    (h5 : (splitSep logSeparator (trimGoQuote commit)).get? 5 = none) :
    parseCommitLog mp commit = none := by
  unfold parseCommitLog
  split
  · rename_i heq5
    rw [heq5] at h5
    cases h5
  · rfl

theorem list_six_part {α : Type} {l : List α} (h : 6 ≤ l.length) :
    ∃ a b c d e f rest, l = a :: b :: c :: d :: e :: f :: rest := by
  cases l with
  | nil => simp at h
  | cons a l1 =>
  cases l1 with
  | nil => simp at h
  | cons b l2 =>
  cases l2 with
  | nil => simp at h
  | cons c l3 =>
  cases l3 with
  | nil => simp at h
  | cons d l4 =>
  cases l4 with
  | nil => simp at h
  | cons e l5 =>
  cases l5 with
  | nil => simp at h
  | cons f l6 => exact ⟨a, b, c, d, e, f, l6, rfl⟩

theorem processTagLine_oob {line : List Char} (hne : trimSpace line ≠ [])
    (hmem : '#' ∉ trimSpace line) : processTagLine line = none := by
  unfold processTagLine
  rw [if_neg hne, splitSep_none (findSub_singleton_not_mem hmem)]
  rfl

theorem parseTagsGo_none_of_mem :
    ∀ ls : List (List Char), ∀ line ∈ ls, processTagLine line = none →
      parseTagsGo ls = none := by
  intro ls
  induction ls with
  | nil =>
    intro line h
    simp at h
  | cons a ls ih =>
    intro line hmem hnone
    have hstep : parseTagsGo (a :: ls) = match processTagLine a with
        | none => none
        | some none => parseTagsGo ls
        | some (some t) => (parseTagsGo ls).map (t :: ·) := rfl
    rcases List.mem_cons.mp hmem with rfl | h2
    · rw [hstep, hnone]
    · have hrec := ih line h2 hnone
      rw [hstep]
      cases hpa : processTagLine a with
      | none => rfl
      | some o =>
        cases o with
        | none => exact hrec
        | some t =>
          rw [hrec]
          rfl

/-- Claim C10 (confirmed): the parsers index fixed positions without a field
count check.  parseCommitLog panics (returns none in the model) on any
record — the non-emptiness assumption is not even needed — with fewer than
five separator occurrences, and succeeds (no out-of-range access) on any
record with at least five; processTagLine panics on any line that trims to a
non-empty string containing no '#', and performs only in-bounds accesses
when the trimmed line contains a '#'; a panicking line makes the whole
parseTagsOutput run panic. -/
theorem index_bounds_preconditions :
    (∀ (E CM : Type) (mp : List Char → List Char → Except E CM)
        (commit : List Char), commit ≠ [] →
      countOcc logSeparator (trimGoQuote commit) < 5 →
      parseCommitLog mp commit = none) ∧
    (∀ (E CM : Type) (mp : List Char → List Char → Except E CM)
        (commit : List Char), 5 ≤ countOcc logSeparator (trimGoQuote commit) →
      ∃ v, parseCommitLog mp commit = some v) ∧
    (∀ line : List Char, trimSpace line ≠ [] → '#' ∉ trimSpace line →
      processTagLine line = none) ∧
    (∀ line : List Char, '#' ∈ trimSpace line →
      ∃ t, processTagLine line = some t) ∧
    (∀ input line : List Char, line ∈ goLines input → trimSpace line ≠ [] →
      '#' ∉ trimSpace line → parseTagsOutput input = none) := by
  have hm : logSeparator ≠ [] := by decide
  refine ⟨?_, ?_, ?_, ?_, ?_⟩
  · intro E CM mp commit _ hcount
    have hlen := splitSep_length_aux hm (trimGoQuote commit).length
      (trimGoQuote commit) le_rfl
    apply parseCommitLog_oob
    rw [List.get?_eq_none]
    omega
  · intro E CM mp commit hcount
    have hlen := splitSep_length_aux hm (trimGoQuote commit).length
      (trimGoQuote commit) le_rfl
    obtain ⟨a, b, c, d, e, f, rest, hc⟩ :=
      list_six_part (l := splitSep logSeparator (trimGoQuote commit)) (by omega)
    exact ⟨_, parseCommitLog_eq mp commit a b c d e f rest hc⟩
  · intro line hne hmem
    exact processTagLine_oob hne hmem
  · intro line hmem
    have hne : trimSpace line ≠ [] := by
      intro hh
      rw [hh] at hmem
      simp at hmem
    unfold processTagLine
    rw [if_neg hne]
    obtain ⟨i, hi⟩ := findSub_singleton_mem hmem
    rw [splitSep_cons (by decide) hi]
    have hnn := splitSep_ne_nil (m := ['#']) (by decide)
      ((trimSpace line).drop (i + List.length ['#']))
    cases hsb : splitSep ['#'] ((trimSpace line).drop (i + List.length ['#'])) with
    | nil => exact absurd hsb hnn
    | cons b0 bs => exact ⟨_, rfl⟩
  · intro input line hmem hne hnosep
    exact parseTagsGo_none_of_mem (goLines input) line hmem
      (processTagLine_oob hne hnosep)

/-- Witness for index_bounds_preconditions at concrete records and lines. -/
theorem index_bounds_preconditions_w :
    parseCommitLog mpPair (strL "a###b") = none ∧
    (∃ v, parseCommitLog mpPair (strL "d###1###a###h###s###b") = some v) ∧
    processTagLine (strL "nohash") = none ∧
    (∃ t, processTagLine (strL "2024#v1") = some t) ∧
    parseTagsOutput (strL "line-without-hash") = none :=
  ⟨index_bounds_preconditions.1 (List Char) (List Char × List Char) mpPair
      (strL "a###b") (by decide) (by decide),
   index_bounds_preconditions.2.1 (List Char) (List Char × List Char) mpPair
      (strL "d###1###a###h###s###b") (by decide),
   index_bounds_preconditions.2.2.1 (strL "nohash") (by decide) (by decide),
   index_bounds_preconditions.2.2.2.1 (strL "2024#v1") (by decide),
   index_bounds_preconditions.2.2.2.2 (strL "line-without-hash")
      (strL "line-without-hash") (by decide) (by decide) (by decide)⟩

end SvGit
